import Mathlib

/-!
# Verification of the wren-sys host-embedding contract

`wren-sys` exposes the C API of the Wren scripting VM to Rust: `src/lib.rs`
declares the callback types (`WrenReallocateFn`, `WrenErrorFn`, ...), the
enums (`WrenErrorType`, `WrenInterpretResult`, `WrenType`) and the
`extern "C"` entry points (`wrenInterpret`, `wrenSetSlotBytes`, ...), each
carrying the normative documentation of its behaviour.  The VM
implementation itself is not part of the crate's sources; the definitions
below model the documented contract (spec sections 3, 4 and 8) as an
executable state machine: a heap of objects addressed by numeric ids, a
slot array, a handle table, a module cache, an event-emitting `interpret`
and a realloc-style allocator.  Byte strings are `List Nat`.
-/

set_option autoImplicit false

/-! ## Definitions -/

abbrev Bytes := List Nat

/-- Mirrors the `WrenErrorType` enum of `src/lib.rs` (Compile, Runtime,
StackTrace). -/
inductive WrenErrorType where
  | Compile
  | Runtime
  | StackTrace
deriving DecidableEq, Repr

/-- Mirrors the `WrenInterpretResult` enum of `src/lib.rs`. -/
inductive WrenInterpretResult where
  | Success
  | CompileError
  | RuntimeError
deriving DecidableEq, Repr

/-- One invocation of the `WrenErrorFn` reporter callback: the event kind,
the module name and line (absent for Runtime events, which the source
comment says carry "no module or line"), and the message. -/
structure ErrorEvent where
  etype : WrenErrorType
  emodule : Option Bytes
  line : Option Nat
  message : Bytes
deriving DecidableEq, Repr

/-- A compile diagnostic: resolved module name, line, and compiler message,
as passed to the reporter for a Compile event. -/
structure CompileDiag where
  dmodule : Bytes
  dline : Nat
  dmessage : Bytes
deriving DecidableEq, Repr

/-- One stack frame of a runtime error report: the module and line where
the function is defined, and the function name (carried in the message
field of the StackTrace event). -/
structure StackFrame where
  fmodule : Bytes
  fline : Nat
  fnName : Bytes
deriving DecidableEq, Repr

/-- Modelled from the spec: the compiler and interpreter loop are out of
scope of the crate (the C library behind the `extern` block), so a script's
fate is abstracted as an oracle: compilation fails with one or more
diagnostics, or the compiled code runs to completion, or it fails at
runtime after some writes, with a message and a stack of frames listed
innermost first. -/
inductive ScriptBehavior where
  | compileFail (first : CompileDiag) (rest : List CompileDiag)
  | runSuccess (writes : List Bytes)
  | runFail (writes : List Bytes) (message : Bytes) (frames : List StackFrame)
deriving DecidableEq, Repr

/-- The reporter invocation for one compile diagnostic. -/
def compileEvent (d : CompileDiag) : ErrorEvent :=
  ⟨WrenErrorType.Compile, some d.dmodule, some d.dline, d.dmessage⟩

/-- The reporter invocation for a runtime error: no module, no line. -/
def runtimeEvent (msg : Bytes) : ErrorEvent :=
  ⟨WrenErrorType.Runtime, none, none, msg⟩

/-- The reporter invocation for one stack-trace entry. -/
def stackTraceEvent (f : StackFrame) : ErrorEvent :=
  ⟨WrenErrorType.StackTrace, some f.fmodule, some f.fline, f.fnName⟩

/-- Observable outcome of one `wrenInterpret` call: the returned
`WrenInterpretResult`, the reporter invocations in order, the write
callback invocations in order, and whether any code from the source
executed. -/
structure InterpretOutput where
  result : WrenInterpretResult
  events : List ErrorEvent
  writes : List Bytes
  ran : Bool
deriving DecidableEq, Repr

/-- Modelled from the spec: `wrenInterpret` (declared in `src/lib.rs`,
implemented in the out-of-scope C library).  A compile failure reports
every diagnostic as a Compile event and returns CompileError without
running any code and without touching the write callback; a successful
run returns Success with its writes and no events; a runtime failure
performs its writes, reports one Runtime event followed by one StackTrace
event per frame, innermost first, and returns RuntimeError. -/
def wrenInterpret : ScriptBehavior → InterpretOutput
  | ScriptBehavior.compileFail d ds =>
      ⟨WrenInterpretResult.CompileError, (d :: ds).map compileEvent, [], false⟩
  | ScriptBehavior.runSuccess w =>
      ⟨WrenInterpretResult.Success, [], w, true⟩
  | ScriptBehavior.runFail w m frames =>
      ⟨WrenInterpretResult.RuntimeError,
        runtimeEvent m :: frames.map stackTraceEvent, w, true⟩

/-- A slot value, at the granularity the C API distinguishes: booleans,
numbers, null, and references to heap objects (strings, lists, foreign
instances). -/
inductive Value where
  | vbool (b : Bool)
  | vnum (n : Int)
  | vnull
  | vref (r : Nat)
deriving DecidableEq, Repr

/-- A heap object.  A foreign instance records the class value it was
created from and the size of its raw storage; the object's id doubles as
the address of that storage. -/
inductive Obj where
  | str (bytes : Bytes)
  | objlist (elems : List Value)
  | foreign (cls : Value) (size : Nat)
deriving DecidableEq, Repr

/-- First value bound to key `k` in an association list. -/
def assocGet {α : Type} : List (Nat × α) → Nat → Option α
  | [], _ => none
  | e :: es, k => if e.1 = k then some e.2 else assocGet es k

/-- Rebind every entry with key `k` to `a`. -/
def assocSet {α : Type} : List (Nat × α) → Nat → α → List (Nat × α)
  | [], _, _ => []
  | e :: es, k, a =>
      if e.1 = k then (k, a) :: assocSet es k a else e :: assocSet es k a

/-- Boolean membership test for `Nat` lists. -/
def memNat (r : Nat) : List Nat → Bool
  | [] => false
  | x :: xs => x == r || memNat r xs

/-- Positional lookup in a list. -/
def listGet {α : Type} : List α → Nat → Option α
  | [], _ => none
  | x :: _, 0 => some x
  | _ :: xs, n + 1 => listGet xs n

/-- Positional update in a list; out-of-range indices leave it unchanged. -/
def listSet {α : Type} : List α → Nat → α → List α
  | [], _, _ => []
  | _ :: xs, 0, v => v :: xs
  | x :: xs, n + 1, v => x :: listSet xs n v

/-- Insert a value at a position, appending when the position is at or
past the end. -/
def insertAt : Nat → Value → List Value → List Value
  | 0, v, l => v :: l
  | _ + 1, v, [] => [v]
  | n + 1, v, x :: xs => x :: insertAt n v xs

/-- Modelled from the spec: the state behind an opaque `WrenVM` pointer,
at the granularity of the embedding API of `src/lib.rs`: a heap of
objects addressed by fresh numeric ids, the per-call slot array, and the
table of live handles. -/
structure WrenVM where
  heap : List (Nat × Obj)
  nextId : Nat
  slots : List Value
  handles : List (Nat × Value)
  nextHandle : Nat
deriving DecidableEq, Repr

/-- Look an object up by id. -/
def heapGet (vm : WrenVM) (r : Nat) : Option Obj :=
  assocGet vm.heap r

/-- Replace the object stored at id `r`. -/
def heapSet (vm : WrenVM) (r : Nat) (o : Obj) : WrenVM :=
  { vm with heap := assocSet vm.heap r o }

/-- Allocate `o` at a fresh id and return the id. -/
def heapAlloc (vm : WrenVM) (o : Obj) : Nat × WrenVM :=
  (vm.nextId,
   { vm with heap := (vm.nextId, o) :: vm.heap, nextId := vm.nextId + 1 })

/-- Read a slot. -/
def slotGet (vm : WrenVM) (slot : Nat) : Option Value :=
  listGet vm.slots slot

/-- Write a slot (every slot setter of the API stores through this). -/
def slotSet (vm : WrenVM) (slot : Nat) (v : Value) : WrenVM :=
  { vm with slots := listSet vm.slots slot v }

/-- Refs held directly by one value. -/
def valueRefs : Value → List Nat
  | Value.vref r => [r]
  | _ => []

/-- Refs held directly by a list of values. -/
def refsOfValues : List Value → List Nat
  | [] => []
  | v :: vs => valueRefs v ++ refsOfValues vs

/-- Refs held directly by an object's fields. -/
def objRefs : Obj → List Nat
  | Obj.str _ => []
  | Obj.objlist es => refsOfValues es
  | Obj.foreign cls _ => valueRefs cls

/-- Modelled from the spec: the collector's root set.  `collectGarbage`
"must honor all live Handles and in-flight Slot contents of the currently
executing native call" (spec 4.1), so every ref reachable from the handle
table or the slot array is a root. -/
def rootIds (vm : WrenVM) : List Nat :=
  refsOfValues (vm.handles.map Prod.snd) ++ refsOfValues vm.slots

/-- One step of reachability: keep the set and add the refs of every
object it points to. -/
def expandIds (vm : WrenVM) (s : List Nat) : List Nat :=
  s ++ (s.filterMap (fun r => heapGet vm r)).foldr (fun o acc => objRefs o ++ acc) []

/-- Iterated expansion. -/
def reachDepth (vm : WrenVM) : Nat → List Nat → List Nat
  | 0, s => s
  | n + 1, s => reachDepth vm n (expandIds vm s)

/-- Ids transitively reachable from the roots (the heap's length bounds
every reference chain without repetition). -/
def reachableIds (vm : WrenVM) : List Nat :=
  reachDepth vm vm.heap.length (rootIds vm)

/-- Modelled from the spec: `wrenCollectGarbage` (declared at
`src/lib.rs:275`) immediately frees every heap object not reachable from
the roots; slots and handles themselves are untouched. -/
def wrenCollectGarbage (vm : WrenVM) : WrenVM :=
  { vm with heap := vm.heap.filter (fun e => memNat e.1 (reachableIds vm)) }

/-- `n` forced collection cycles. -/
def gcIter : Nat → WrenVM → WrenVM
  | 0, vm => vm
  | n + 1, vm => gcIter n (wrenCollectGarbage vm)

/-- Mirrors `wrenGetSlotCount` (`src/lib.rs:345`). -/
def wrenGetSlotCount (vm : WrenVM) : Nat :=
  vm.slots.length

/-- Modelled from the spec: `wrenEnsureSlots` (`src/lib.rs:353`) grows the
slot array to at least `n` slots and never shrinks it; new slots hold
null. -/
def wrenEnsureSlots (vm : WrenVM) (n : Nat) : WrenVM :=
  if n ≤ vm.slots.length then vm
  else { vm with
         slots := vm.slots ++ List.replicate (n - vm.slots.length) Value.vnull }

/-- Modelled from the spec: `wrenSetSlotBool` (`src/lib.rs:403`). -/
def wrenSetSlotBool (vm : WrenVM) (slot : Nat) (b : Bool) : WrenVM :=
  slotSet vm slot (Value.vbool b)

/-- Modelled from the spec: `wrenSetSlotDouble` (`src/lib.rs:412`);
numbers are modelled as integers, which is enough for the claims at
hand. -/
def wrenSetSlotDouble (vm : WrenVM) (slot : Nat) (n : Int) : WrenVM :=
  slotSet vm slot (Value.vnum n)

/-- Modelled from the spec: `wrenSetSlotNull` (`src/lib.rs:429`). -/
def wrenSetSlotNull (vm : WrenVM) (slot : Nat) : WrenVM :=
  slotSet vm slot Value.vnull

/-- Modelled from the spec: `wrenSetSlotBytes` (`src/lib.rs:409`) copies
the given byte array (pointer plus explicit length, here the list itself)
into a new string on Wren's heap and stores it in the slot. -/
def wrenSetSlotBytes (vm : WrenVM) (slot : Nat) (bytes : Bytes) : WrenVM :=
  let p := heapAlloc vm (Obj.str bytes)
  slotSet p.2 slot (Value.vref p.1)

/-- Modelled from the spec: `wrenGetSlotBytes` (`src/lib.rs:373`) returns
the byte array of the string in the slot together with its length (here
the list, whose length is the reported length). -/
def wrenGetSlotBytes (vm : WrenVM) (slot : Nat) : Option Bytes :=
  match slotGet vm slot with
  | some (Value.vref r) =>
      match heapGet vm r with
      | some (Obj.str bs) => some bs
      | _ => none
  | _ => none

/-- Modelled from the spec: `wrenSetSlotString` (`src/lib.rs:437`) copies
the text into a new string on Wren's heap; per its documentation "the
length is calculated using strlen()", so only the bytes before the first
null byte are stored. -/
def wrenSetSlotString (vm : WrenVM) (slot : Nat) (text : Bytes) : WrenVM :=
  wrenSetSlotBytes vm slot (text.takeWhile (fun b => b != 0))

/-- Modelled from the spec: `wrenGetSlotString` (`src/lib.rs:394`) returns
the bytes of the string in the slot. -/
def wrenGetSlotString (vm : WrenVM) (slot : Nat) : Option Bytes :=
  wrenGetSlotBytes vm slot

/-- Modelled from the spec: `wrenGetSlotHandle` (`src/lib.rs:400`) creates
a handle for the slot's current value, rooting it against collection
until released. -/
def wrenGetSlotHandle (vm : WrenVM) (slot : Nat) : Option (Nat × WrenVM) :=
  match slotGet vm slot with
  | some v =>
      some (vm.nextHandle,
            { vm with handles := (vm.nextHandle, v) :: vm.handles,
                      nextHandle := vm.nextHandle + 1 })
  | none => none

/-- Modelled from the spec: `wrenSetSlotHandle` (`src/lib.rs:442`) stores
the value captured in the handle into the slot, without releasing the
handle. -/
def wrenSetSlotHandle (vm : WrenVM) (slot : Nat) (h : Nat) : WrenVM :=
  match assocGet vm.handles h with
  | some v => slotSet vm slot v
  | none => vm

/-- Modelled from the spec: `wrenReleaseHandle` (`src/lib.rs:305`) removes
the handle's root. -/
def wrenReleaseHandle (vm : WrenVM) (h : Nat) : WrenVM :=
  { vm with handles := vm.handles.filter (fun e => e.1 != h) }

/-- Modelled from the spec: `wrenSetSlotNewList` (`src/lib.rs:426`) stores
a new empty list in the slot. -/
def wrenSetSlotNewList (vm : WrenVM) (slot : Nat) : WrenVM :=
  let p := heapAlloc vm (Obj.objlist [])
  slotSet p.2 slot (Value.vref p.1)

/-- Modelled from the spec: `wrenGetListCount` (`src/lib.rs:445`) returns
the number of elements of the list in the slot. -/
def wrenGetListCount (vm : WrenVM) (slot : Nat) : Option Nat :=
  match slotGet vm slot with
  | some (Value.vref r) =>
      match heapGet vm r with
      | some (Obj.objlist es) => some es.length
      | _ => none
  | _ => none

/-- Modelled from the spec: `wrenInsertInList` (`src/lib.rs:456`) takes
the value in `elemSlot` and inserts it into the list in `listSlot` at
`index`; "negative indexes can be used to insert from the end", counted
so that `-1` appends. -/
def wrenInsertInList (vm : WrenVM) (listSlot : Nat) (index : Int)
    (elemSlot : Nat) : WrenVM :=
  match slotGet vm listSlot, slotGet vm elemSlot with
  | some (Value.vref r), some v =>
      match heapGet vm r with
      | some (Obj.objlist es) =>
          let pos : Int := if index < 0 then (es.length : Int) + 1 + index else index
          if 0 ≤ pos ∧ pos ≤ (es.length : Int) then
            heapSet vm r (Obj.objlist (insertAt pos.toNat v es))
          else vm
      | _ => vm
  | _, _ => vm

/-- Modelled from the spec: `wrenGetListElement` (`src/lib.rs:449`) reads
element `index` of the list in `listSlot` and stores it in `elemSlot`. -/
def wrenGetListElement (vm : WrenVM) (listSlot : Nat) (index : Int)
    (elemSlot : Nat) : WrenVM :=
  match slotGet vm listSlot with
  | some (Value.vref r) =>
      match heapGet vm r with
      | some (Obj.objlist es) =>
          if 0 ≤ index ∧ index < (es.length : Int) then
            slotSet vm elemSlot (es.getD index.toNat Value.vnull)
          else vm
      | _ => vm
  | _ => vm

/-- Modelled from the spec: `wrenSetSlotNewForeign` (`src/lib.rs:423`)
creates a new instance of the foreign class in `classSlot` with `size`
bytes of raw storage, places it in `slot`, and returns a pointer to the
storage (modelled as the fresh object id). -/
def wrenSetSlotNewForeign (vm : WrenVM) (slot classSlot : Nat) (size : Nat) :
    Option (Nat × WrenVM) :=
  match slotGet vm classSlot with
  | some cls =>
      let p := heapAlloc vm (Obj.foreign cls size)
      some (p.1, slotSet p.2 slot (Value.vref p.1))
  | none => none

/-- Modelled from the spec: `wrenGetSlotForeign` (`src/lib.rs:385`)
returns the pointer to the foreign data of the instance in the slot
(modelled as the object id). -/
def wrenGetSlotForeign (vm : WrenVM) (slot : Nat) : Option Nat :=
  match slotGet vm slot with
  | some (Value.vref r) =>
      match heapGet vm r with
      | some (Obj.foreign _ _) => some r
      | _ => none
  | _ => none

/-- The list-append scenario of the spec's testable properties: for each
value in turn, store it in `elemSlot` (every slot setter of the API stores
through `slotSet`) and insert it at index `-1` into the list in
`listSlot`. -/
def appendViaSlots (vm : WrenVM) (listSlot elemSlot : Nat) :
    List Value → WrenVM
  | [] => vm
  | v :: vs =>
      appendViaSlots
        (wrenInsertInList (slotSet vm elemSlot v) listSlot (-1) elemSlot)
        listSlot elemSlot vs

/-- Syntax of what a native foreign method (a `WrenForeignMethodFn`) may do
to the VM through the slot API, so that "never writes slot 0" is a
property of the method's code. -/
inductive HostOp where
  | opSetSlotBool (slot : Nat) (b : Bool)
  | opSetSlotDouble (slot : Nat) (n : Int)
  | opSetSlotNull (slot : Nat)
  | opSetSlotBytes (slot : Nat) (bs : Bytes)
  | opSetSlotString (slot : Nat) (text : Bytes)
  | opSetSlotNewList (slot : Nat)
  | opSetSlotNewForeign (slot classSlot : Nat) (size : Nat)
  | opSetSlotHandle (slot : Nat) (h : Nat)
  | opGetSlotHandle (slot : Nat)
  | opGetListElement (listSlot : Nat) (index : Int) (elemSlot : Nat)
  | opInsertInList (listSlot : Nat) (index : Int) (elemSlot : Nat)
  | opEnsureSlots (n : Nat)
  | opCollectGarbage
deriving DecidableEq, Repr

/-- Execute one API call of a native method body. -/
def runOp (vm : WrenVM) : HostOp → WrenVM
  | HostOp.opSetSlotBool s b => wrenSetSlotBool vm s b
  | HostOp.opSetSlotDouble s n => wrenSetSlotDouble vm s n
  | HostOp.opSetSlotNull s => wrenSetSlotNull vm s
  | HostOp.opSetSlotBytes s bs => wrenSetSlotBytes vm s bs
  | HostOp.opSetSlotString s t => wrenSetSlotString vm s t
  | HostOp.opSetSlotNewList s => wrenSetSlotNewList vm s
  | HostOp.opSetSlotNewForeign s cs sz =>
      match wrenSetSlotNewForeign vm s cs sz with
      | some p => p.2
      | none => vm
  | HostOp.opSetSlotHandle s h => wrenSetSlotHandle vm s h
  | HostOp.opGetSlotHandle s =>
      match wrenGetSlotHandle vm s with
      | some p => p.2
      | none => vm
  | HostOp.opGetListElement ls i es => wrenGetListElement vm ls i es
  | HostOp.opInsertInList ls i es => wrenInsertInList vm ls i es
  | HostOp.opEnsureSlots n => wrenEnsureSlots vm n
  | HostOp.opCollectGarbage => wrenCollectGarbage vm

/-- Whether an API call stores into slot 0. -/
def writesSlotZero : HostOp → Bool
  | HostOp.opSetSlotBool s _ => s == 0
  | HostOp.opSetSlotDouble s _ => s == 0
  | HostOp.opSetSlotNull s => s == 0
  | HostOp.opSetSlotBytes s _ => s == 0
  | HostOp.opSetSlotString s _ => s == 0
  | HostOp.opSetSlotNewList s => s == 0
  | HostOp.opSetSlotNewForeign s _ _ => s == 0
  | HostOp.opSetSlotHandle s _ => s == 0
  | HostOp.opGetSlotHandle _ => false
  | HostOp.opGetListElement _ _ es => es == 0
  | HostOp.opInsertInList _ _ _ => false
  | HostOp.opEnsureSlots _ => false
  | HostOp.opCollectGarbage => false

/-- Execute a native method body. -/
def runProg (prog : List HostOp) (vm : WrenVM) : WrenVM :=
  prog.foldl runOp vm

/-- Modelled from the spec: entry state of a native call (`src/lib.rs`
lines 314-317): the receiver is in slot 0 and the arguments follow it. -/
def nativeCallEntry (vm : WrenVM) (receiver : Value) (args : List Value) :
    WrenVM :=
  { vm with slots := receiver :: args }

/-- Modelled from the spec: a whole native call (`src/lib.rs` lines
320-323): set up the slots, run the body, then take slot 0 as the call's
result and discard every other slot. -/
def nativeCall (prog : List HostOp) (vm : WrenVM) (receiver : Value)
    (args : List Value) : Value × WrenVM :=
  let fin := runProg prog (nativeCallEntry vm receiver args)
  let ret := fin.slots.headD Value.vnull
  (ret, { fin with slots := [ret] })

/-- Outcome of an import as seen from the importing code. -/
inductive ImportOutcome where
  | loaded (source : Bytes)
  | unresolvedImport
  | moduleNotFound
deriving DecidableEq, Repr

/-- First source bound to a canonical module name in the cache. -/
def cacheGet : List (Bytes × Bytes) → Bytes → Option Bytes
  | [], _ => none
  | e :: es, k => if e.1 = k then some e.2 else cacheGet es k

/-- Modelled from the spec: the per-VM module state, plus logs of the
actual invocations of the resolve and load callbacks so that "is invoked"
claims are properties of the state. -/
structure ImportState where
  cache : List (Bytes × Bytes)
  resolveLog : List (Bytes × Bytes)
  loadLog : List Bytes
deriving DecidableEq, Repr

/-- Modelled from the spec: one import (`src/lib.rs` lines 118-159).
The resolve callback is invoked before each import with the importing
module and the import string; a null result is an unresolved-import
runtime error.  The cache, keyed by the canonical name, is consulted
next: a hit reuses the cached source without invoking the loader.  On a
miss the load callback is invoked; a null result is a module-not-found
runtime error (nothing is cached), otherwise the returned source is
cached under the canonical name. -/
def importModule (res : Bytes → Bytes → Option Bytes)
    (load : Bytes → Option Bytes) (st : ImportState) (importer nm : Bytes) :
    ImportState × ImportOutcome :=
  let st1 : ImportState :=
    { st with resolveLog := st.resolveLog ++ [(importer, nm)] }
  match res importer nm with
  | none => (st1, ImportOutcome.unresolvedImport)
  | some canon =>
      match cacheGet st1.cache canon with
      | some src => (st1, ImportOutcome.loaded src)
      | none =>
          match load canon with
          | none =>
              ({ st1 with loadLog := st1.loadLog ++ [canon] },
               ImportOutcome.moduleNotFound)
          | some src =>
              ({ st1 with cache := (canon, src) :: st1.cache,
                          loadLog := st1.loadLog ++ [canon] },
               ImportOutcome.loaded src)

/-- A fresh VM has no modules and has invoked no callbacks. -/
def emptyImportState : ImportState :=
  ⟨[], [], []⟩

/-- Run a sequence of imports (importer, import string) in order. -/
def runImports (res : Bytes → Bytes → Option Bytes)
    (load : Bytes → Option Bytes) (st : ImportState) :
    List (Bytes × Bytes) → ImportState
  | [] => st
  | i :: is => runImports res load (importModule res load st i.1 i.2).1 is

/-- Number of times a canonical name occurs in an invocation log. -/
def countBytes (c : Bytes) : List Bytes → Nat
  | [] => 0
  | x :: xs => (if x = c then 1 else 0) + countBytes c xs

/-- For a fixed load callback: every canonical name the loader can supply
has been load-invoked at most once, and a name not yet cached has never
been load-invoked. -/
def loadOnceInv (load : Bytes → Option Bytes) (st : ImportState) : Prop :=
  ∀ c : Bytes, load c ≠ none →
    (cacheGet st.cache c = none → c ∉ st.loadLog) ∧
    countBytes c st.loadLog ≤ 1

/-- Host memory as the allocator callback sees it: allocated blocks by
address with their contents, and a fresh-address counter (0 plays the role
of the null pointer, so addresses start at 1). -/
structure Mem where
  blocks : List (Nat × Bytes)
  nextAddr : Nat
deriving DecidableEq, Repr

/-- Well-formedness of a memory: every allocated address is below the
fresh-address counter and nonzero. -/
def memWF (m : Mem) : Bool :=
  m.blocks.all (fun e => e.1 < m.nextAddr && e.1 != 0)

/-- Contents of a block resized to `n` bytes: the old bytes up to `n`,
zero-filled beyond the old length. -/
def resizeBytes (old : Bytes) (n : Nat) : Bytes :=
  old.take n ++ List.replicate (n - old.length) 0

/-- Modelled from the spec: a `WrenReallocateFn` (`src/lib.rs` lines
21-36), as implemented by the built-in realloc/free default.  With a null
pointer and a positive size it allocates a fresh block; with a live
pointer and a positive size it resizes the block, in place when
shrinking, moving it to a fresh address when growing; with a live pointer
and size zero it frees the block and returns null. -/
def reallocate (m : Mem) (memory : Option Nat) (newSize : Nat) :
    Mem × Option Nat :=
  match memory with
  | none =>
      if newSize = 0 then (m, none)
      else ({ blocks := (m.nextAddr, List.replicate newSize 0) :: m.blocks,
              nextAddr := m.nextAddr + 1 }, some m.nextAddr)
  | some p =>
      if newSize = 0 then
        ({ m with blocks := m.blocks.filter (fun e => e.1 != p) }, none)
      else
        match assocGet m.blocks p with
        | none => (m, none)
        | some old =>
            if newSize ≤ old.length then
              ({ m with blocks := assocSet m.blocks p (old.take newSize) },
               some p)
            else
              ({ blocks := (m.nextAddr, resizeBytes old newSize) ::
                    m.blocks.filter (fun e => e.1 != p),
                 nextAddr := m.nextAddr + 1 }, some m.nextAddr)

/-! ## Theorems -/

theorem listGet_listSet_self {α : Type} (l : List α) (n : Nat) (v : α)
    (h : n < l.length) : listGet (listSet l n v) n = some v := by
  induction l generalizing n with
  | nil => simp at h
  | cons x xs ih =>
      cases n with
      | zero => rfl
      | succ m => exact ih m (Nat.lt_of_succ_lt_succ h)

theorem listGet_listSet_ne {α : Type} (l : List α) (n m : Nat) (v : α)
    (h : m ≠ n) : listGet (listSet l n v) m = listGet l m := by
  induction l generalizing n m with
  | nil => rfl
  | cons x xs ih =>
      cases n with
      | zero =>
          cases m with
          | zero => exact absurd rfl h
          | succ k => rfl
      | succ n' =>
          cases m with
          | zero => rfl
          | succ k => exact ih n' k (fun hk => h (by rw [hk]))

theorem listSet_length {α : Type} (l : List α) (n : Nat) (v : α) :
    (listSet l n v).length = l.length := by
  induction l generalizing n with
  | nil => rfl
  | cons x xs ih =>
      cases n with
      | zero => rfl
      | succ m =>
          show (x :: listSet xs m v).length = (x :: xs).length
          simp [ih m]

theorem listGet_of_lt {α : Type} (l : List α) (n : Nat) (h : n < l.length) :
    ∃ a, listGet l n = some a := by
  induction l generalizing n with
  | nil => simp at h
  | cons x xs ih =>
      cases n with
      | zero => exact ⟨x, rfl⟩
      | succ m => exact ih m (Nat.lt_of_succ_lt_succ h)

theorem assocGet_assocSet_self {α : Type} (l : List (Nat × α)) (k : Nat)
    (a b : α) (h : assocGet l k = some b) :
    assocGet (assocSet l k a) k = some a := by
  induction l with
  | nil => simp [assocGet] at h
  | cons e es ih =>
      by_cases hk : e.1 = k
      · simp [assocGet, assocSet, hk]
      · simp only [assocGet, assocSet, if_neg hk] at h ⊢
        exact ih h

theorem assocGet_assocSet_ne {α : Type} (l : List (Nat × α)) (k k' : Nat)
    (a : α) (h : k' ≠ k) :
    assocGet (assocSet l k a) k' = assocGet l k' := by
  induction l with
  | nil => rfl
  | cons e es ih =>
      by_cases hk : e.1 = k
      · have hkk' : ¬k = k' := fun hh => h hh.symm
        have he' : ¬e.1 = k' := by rw [hk]; exact hkk'
        simp only [assocSet, if_pos hk, assocGet, if_neg hkk', if_neg he', ih]
      · by_cases he' : e.1 = k'
        · simp only [assocSet, if_neg hk, assocGet, if_pos he']
        · simp only [assocSet, if_neg hk, assocGet, if_neg he', ih]

theorem insertAt_length_append (l : List Value) (v : Value) :
    insertAt l.length v l = l ++ [v] := by
  induction l with
  | nil => rfl
  | cons x xs ih => simp [insertAt, ih]

theorem getSlotBytes_setSlotBytes (vm : WrenVM) (slot : Nat) (bs : Bytes)
    (h : slot < vm.slots.length) :
    wrenGetSlotBytes (wrenSetSlotBytes vm slot bs) slot = some bs := by
  simp only [wrenSetSlotBytes, wrenGetSlotBytes, heapAlloc, slotGet, slotSet,
    heapGet]
  rw [listGet_listSet_self _ _ _ h]
  simp [assocGet]

theorem takeWhile_nz_eq_self_iff (l : Bytes) :
    l.takeWhile (fun b => b != 0) = l ↔ (0 : Nat) ∉ l := by
  induction l with
  | nil => simp
  | cons x xs ih =>
      by_cases hx : x = 0
      · subst hx
        simp [List.takeWhile]
      · have hb : (x != 0) = true := by simp [hx]
        have hx0 : ¬(0 : Nat) = x := fun hh => hx hh.symm
        simp [List.takeWhile, hb, hx0, ih]

theorem countP_stackTrace_runtime (frames : List StackFrame) :
    (frames.map stackTraceEvent).countP
      (fun e => e.etype == WrenErrorType.Runtime) = 0 := by
  induction frames with
  | nil => rfl
  | cons f fs ih => simp [stackTraceEvent, List.countP_cons, ih]

/-- Claim C1: an `interpret` call that fails at runtime invokes the error
reporter with exactly one Runtime event, followed by zero or more
StackTrace events, one per stack frame, innermost frame first; no
StackTrace event precedes the Runtime event and no Compile event appears
among them. -/
theorem interpret_runtime_event_protocol (b : ScriptBehavior)
    (h : (wrenInterpret b).result = WrenInterpretResult.RuntimeError) :
    ∃ w m frames, b = ScriptBehavior.runFail w m frames ∧
      (wrenInterpret b).events.head? = some (runtimeEvent m) ∧
      (wrenInterpret b).events.tail = frames.map stackTraceEvent ∧
      (wrenInterpret b).events.countP
        (fun e => e.etype == WrenErrorType.Runtime) = 1 ∧
      (∀ e ∈ (wrenInterpret b).events.tail,
        e.etype = WrenErrorType.StackTrace) ∧
      (∀ e ∈ (wrenInterpret b).events, e.etype ≠ WrenErrorType.Compile) := by
  cases b with
  | compileFail d ds => simp [wrenInterpret] at h
  | runSuccess w => simp [wrenInterpret] at h
  | runFail w m frames =>
      refine ⟨w, m, frames, rfl, rfl, rfl, ?_, ?_, ?_⟩
      · simp [wrenInterpret, List.countP_cons, runtimeEvent,
          countP_stackTrace_runtime frames]
      · intro e he
        simp only [wrenInterpret, List.tail_cons, List.mem_map] at he
        obtain ⟨f, _, rfl⟩ := he
        rfl
      · intro e he
        simp only [wrenInterpret, List.mem_cons, List.mem_map] at he
        rcases he with rfl | ⟨f, _, rfl⟩
        · simp [runtimeEvent]
        · simp [stackTraceEvent]

theorem interpret_runtime_event_protocol_witness :
    ∃ w m frames,
      ScriptBehavior.runFail [] [5] [⟨[1], 2, [3]⟩] =
        ScriptBehavior.runFail w m frames ∧
      (wrenInterpret (ScriptBehavior.runFail [] [5] [⟨[1], 2, [3]⟩])).events.head?
        = some (runtimeEvent m) ∧
      (wrenInterpret (ScriptBehavior.runFail [] [5] [⟨[1], 2, [3]⟩])).events.tail
        = frames.map stackTraceEvent ∧
      (wrenInterpret (ScriptBehavior.runFail [] [5] [⟨[1], 2, [3]⟩])).events.countP
        (fun e => e.etype == WrenErrorType.Runtime) = 1 ∧
      (∀ e ∈ (wrenInterpret (ScriptBehavior.runFail [] [5] [⟨[1], 2, [3]⟩])).events.tail,
        e.etype = WrenErrorType.StackTrace) ∧
      (∀ e ∈ (wrenInterpret (ScriptBehavior.runFail [] [5] [⟨[1], 2, [3]⟩])).events,
        e.etype ≠ WrenErrorType.Compile) :=
  interpret_runtime_event_protocol (ScriptBehavior.runFail [] [5] [⟨[1], 2, [3]⟩])
    (by decide)

/-- Claim C2: when compilation fails, `interpret` reports one or more
Compile events and nothing else, never invokes the write callback, runs no
code from the source, and returns CompileError. -/
theorem interpret_compile_failure_behavior (d : CompileDiag)
    (ds : List CompileDiag) :
    (wrenInterpret (ScriptBehavior.compileFail d ds)).result
      = WrenInterpretResult.CompileError ∧
    (wrenInterpret (ScriptBehavior.compileFail d ds)).events ≠ [] ∧
    (∀ e ∈ (wrenInterpret (ScriptBehavior.compileFail d ds)).events,
      e.etype = WrenErrorType.Compile) ∧
    (wrenInterpret (ScriptBehavior.compileFail d ds)).writes = [] ∧
    (wrenInterpret (ScriptBehavior.compileFail d ds)).ran = false := by
  refine ⟨rfl, by simp [wrenInterpret], ?_, rfl, rfl⟩
  intro e he
  simp only [wrenInterpret, List.mem_map] at he
  obtain ⟨x, _, rfl⟩ := he
  rfl

/-- Claim C4: writing any byte string (embedded null bytes included) into a
valid slot with `wrenSetSlotBytes` and reading it back with
`wrenGetSlotBytes` returns a byte array whose length and contents equal the
input exactly. -/
theorem set_get_slot_bytes_roundtrip (vm : WrenVM) (slot : Nat) (bs : Bytes)
    (h : slot < vm.slots.length) :
    wrenGetSlotBytes (wrenSetSlotBytes vm slot bs) slot = some bs :=
  getSlotBytes_setSlotBytes vm slot bs h

theorem set_get_slot_bytes_roundtrip_witness :
    0 < (WrenVM.mk [] 0 [Value.vnull] [] 0).slots.length ∧
    wrenGetSlotBytes
      (wrenSetSlotBytes (WrenVM.mk [] 0 [Value.vnull] [] 0) 0 [1, 0, 2]) 0
      = some [1, 0, 2] :=
  ⟨by decide,
   set_get_slot_bytes_roundtrip (WrenVM.mk [] 0 [Value.vnull] [] 0) 0 [1, 0, 2]
     (by decide)⟩

/-- Claim C9: `wrenSetSlotString` stores only the bytes before the first
null byte (strlen semantics), so the string round-trip reproduces the input
exactly if and only if the input contains no null byte; otherwise it is
truncated at the first null. -/
theorem set_slot_string_truncates_at_null (vm : WrenVM) (slot : Nat)
    (text : Bytes) (h : slot < vm.slots.length) :
    wrenGetSlotString (wrenSetSlotString vm slot text) slot
      = some (text.takeWhile (fun b => b != 0)) ∧
    (wrenGetSlotString (wrenSetSlotString vm slot text) slot = some text ↔
      (0 : Nat) ∉ text) := by
  have hrt := getSlotBytes_setSlotBytes vm slot
    (text.takeWhile (fun b => b != 0)) h
  refine ⟨hrt, ?_⟩
  rw [wrenGetSlotString, wrenSetSlotString, hrt]
  rw [Option.some_inj]
  exact takeWhile_nz_eq_self_iff text

theorem set_slot_string_truncates_at_null_witness :
    0 < (WrenVM.mk [] 0 [Value.vnull] [] 0).slots.length ∧
    (wrenGetSlotString
        (wrenSetSlotString (WrenVM.mk [] 0 [Value.vnull] [] 0) 0 [1, 0, 2]) 0
        = some ([1, 0, 2].takeWhile (fun b => b != 0)) ∧
      (wrenGetSlotString
          (wrenSetSlotString (WrenVM.mk [] 0 [Value.vnull] [] 0) 0 [1, 0, 2]) 0
          = some [1, 0, 2] ↔ (0 : Nat) ∉ ([1, 0, 2] : Bytes))) :=
  ⟨by decide,
   set_slot_string_truncates_at_null (WrenVM.mk [] 0 [Value.vnull] [] 0) 0
     [1, 0, 2] (by decide)⟩

/-- Claim C10: the raw storage pointer returned by a valid
`wrenSetSlotNewForeign` call is the pointer `wrenGetSlotForeign` returns
for that slot, and it stays so in any state in which the slot still holds
that foreign instance. -/
theorem foreign_storage_pointer_identity (vm : WrenVM)
    (slot classSlot size r : Nat) (vm' vm'' : WrenVM) (c : Value) (s : Nat)
    (h : slot < vm.slots.length)
    (hcall : wrenSetSlotNewForeign vm slot classSlot size = some (r, vm'))
    (hslot : slotGet vm'' slot = some (Value.vref r))
    (hheap : heapGet vm'' r = some (Obj.foreign c s)) :
    wrenGetSlotForeign vm' slot = some r ∧
    wrenGetSlotForeign vm'' slot = some r := by
  constructor
  · rcases hc : slotGet vm classSlot with _ | cls
    · rw [wrenSetSlotNewForeign, hc] at hcall
      exact absurd hcall (by simp)
    · rw [wrenSetSlotNewForeign, hc] at hcall
      simp only [heapAlloc, Option.some_inj, Prod.mk.injEq] at hcall
      obtain ⟨rfl, rfl⟩ := hcall
      simp only [wrenGetSlotForeign, slotGet, slotSet, heapGet]
      rw [listGet_listSet_self _ _ _ h]
      simp [assocGet]
  · simp [wrenGetSlotForeign, hslot, hheap]

theorem foreign_storage_pointer_identity_witness :
    0 < (WrenVM.mk [] 0 [Value.vnull, Value.vnull] [] 0).slots.length ∧
    wrenSetSlotNewForeign (WrenVM.mk [] 0 [Value.vnull, Value.vnull] [] 0)
        0 1 4
      = some (0, WrenVM.mk [(0, Obj.foreign Value.vnull 4)] 1
          [Value.vref 0, Value.vnull] [] 0) ∧
    slotGet (WrenVM.mk [(0, Obj.foreign Value.vnull 4)] 1
        [Value.vref 0, Value.vnull] [] 0) 0 = some (Value.vref 0) ∧
    heapGet (WrenVM.mk [(0, Obj.foreign Value.vnull 4)] 1
        [Value.vref 0, Value.vnull] [] 0) 0 = some (Obj.foreign Value.vnull 4) ∧
    (wrenGetSlotForeign (WrenVM.mk [(0, Obj.foreign Value.vnull 4)] 1
        [Value.vref 0, Value.vnull] [] 0) 0 = some 0 ∧
      wrenGetSlotForeign (WrenVM.mk [(0, Obj.foreign Value.vnull 4)] 1
        [Value.vref 0, Value.vnull] [] 0) 0 = some 0) :=
  ⟨by decide, by decide, by decide, by decide,
   foreign_storage_pointer_identity
     (WrenVM.mk [] 0 [Value.vnull, Value.vnull] [] 0) 0 1 4 0
     (WrenVM.mk [(0, Obj.foreign Value.vnull 4)] 1
        [Value.vref 0, Value.vnull] [] 0)
     (WrenVM.mk [(0, Obj.foreign Value.vnull 4)] 1
        [Value.vref 0, Value.vnull] [] 0)
     Value.vnull 4 (by decide) (by decide) (by decide) (by decide)⟩

theorem heapGet_slotSet (vm : WrenVM) (slot : Nat) (v : Value) (r : Nat) :
    heapGet (slotSet vm slot v) r = heapGet vm r := rfl

theorem slotGet_heapSet (vm : WrenVM) (r : Nat) (o : Obj) (slot : Nat) :
    slotGet (heapSet vm r o) slot = slotGet vm slot := rfl

theorem appendViaSlots_spec (listSlot elemSlot : Nat) (vs : List Value)
    (vm : WrenVM) (r : Nat) (es : List Value)
    (hel : elemSlot < vm.slots.length)
    (hne : listSlot ≠ elemSlot)
    (hslot : slotGet vm listSlot = some (Value.vref r))
    (hheap : heapGet vm r = some (Obj.objlist es)) :
    slotGet (appendViaSlots vm listSlot elemSlot vs) listSlot
      = some (Value.vref r) ∧
    heapGet (appendViaSlots vm listSlot elemSlot vs) r
      = some (Obj.objlist (es ++ vs)) ∧
    (appendViaSlots vm listSlot elemSlot vs).slots.length = vm.slots.length := by
  induction vs generalizing vm es with
  | nil => simpa [appendViaSlots] using ⟨hslot, hheap⟩
  | cons v vs ih =>
      have h1 : slotGet (slotSet vm elemSlot v) listSlot
          = some (Value.vref r) := by
        show listGet (listSet vm.slots elemSlot v) listSlot = _
        rw [listGet_listSet_ne _ _ _ _ hne]
        exact hslot
      have h2 : slotGet (slotSet vm elemSlot v) elemSlot = some v := by
        show listGet (listSet vm.slots elemSlot v) elemSlot = _
        exact listGet_listSet_self _ _ _ hel
      have h3 : heapGet (slotSet vm elemSlot v) r = some (Obj.objlist es) :=
        hheap
      have hins : wrenInsertInList (slotSet vm elemSlot v) listSlot (-1) elemSlot
          = heapSet (slotSet vm elemSlot v) r (Obj.objlist (es ++ [v])) := by
        simp only [wrenInsertInList, h1, h2, h3]
        norm_num [Int.toNat_ofNat, insertAt_length_append]
      have hstep : appendViaSlots vm listSlot elemSlot (v :: vs)
          = appendViaSlots
              (heapSet (slotSet vm elemSlot v) r (Obj.objlist (es ++ [v])))
              listSlot elemSlot vs := by
        rw [appendViaSlots, hins]
      rw [hstep]
      have hlen : (heapSet (slotSet vm elemSlot v) r
          (Obj.objlist (es ++ [v]))).slots.length = vm.slots.length := by
        show (listSet vm.slots elemSlot v).length = vm.slots.length
        exact listSet_length _ _ _
      have hres := ih (heapSet (slotSet vm elemSlot v) r (Obj.objlist (es ++ [v])))
        (es ++ [v])
        (by rw [hlen]; exact hel)
        (by rw [slotGet_heapSet]; exact h1)
        (by
          show assocGet (assocSet (slotSet vm elemSlot v).heap r
            (Obj.objlist (es ++ [v]))) r = _
          exact assocGet_assocSet_self _ _ _ _ h3)
      refine ⟨hres.1, ?_, hres.2.2.trans hlen⟩
      rw [hres.2.1]
      simp

/-- Claim C8: `wrenInsertInList` counts negative indices from the end with
`-1` meaning append: appending N values through the element slot yields a
list whose `wrenGetListCount` is N, and `wrenGetListElement` at each index
i in [0,N) reproduces the i-th inserted value. -/
theorem list_append_insertion_order (vm : WrenVM) (listSlot elemSlot : Nat)
    (vs : List Value) (i : Nat)
    (h1 : listSlot < vm.slots.length) (h2 : elemSlot < vm.slots.length)
    (h3 : listSlot ≠ elemSlot) :
    wrenGetListCount
        (appendViaSlots (wrenSetSlotNewList vm listSlot) listSlot elemSlot vs)
        listSlot = some vs.length ∧
    (i < vs.length →
      slotGet
        (wrenGetListElement
          (appendViaSlots (wrenSetSlotNewList vm listSlot) listSlot elemSlot vs)
          listSlot (i : Int) elemSlot)
        elemSlot = some (vs.getD i Value.vnull)) := by
  have hs0 : slotGet (wrenSetSlotNewList vm listSlot) listSlot
      = some (Value.vref vm.nextId) := by
    show listGet (listSet vm.slots listSlot (Value.vref vm.nextId)) listSlot = _
    exact listGet_listSet_self _ _ _ h1
  have hh0 : heapGet (wrenSetSlotNewList vm listSlot) vm.nextId
      = some (Obj.objlist []) := by
    show assocGet ((vm.nextId, Obj.objlist []) :: vm.heap) vm.nextId = _
    simp [assocGet]
  have hl0 : (wrenSetSlotNewList vm listSlot).slots.length = vm.slots.length := by
    show (listSet vm.slots listSlot (Value.vref vm.nextId)).length = _
    exact listSet_length _ _ _
  have hspec := appendViaSlots_spec listSlot elemSlot vs
    (wrenSetSlotNewList vm listSlot) vm.nextId []
    (by rw [hl0]; exact h2) h3 hs0 hh0
  obtain ⟨hsl, hhp, hln⟩ := hspec
  simp only [List.nil_append] at hhp
  constructor
  · simp only [wrenGetListCount, hsl, hhp]
  · intro hi
    have hcond : (0 : Int) ≤ (i : Int) ∧ (i : Int) < (vs.length : Int) := by
      omega
    simp only [wrenGetListElement, hsl, hhp]
    rw [if_pos hcond]
    have hton : ((i : Int)).toNat = i := by omega
    rw [hton]
    show listGet (listSet _ elemSlot _) elemSlot = _
    refine listGet_listSet_self _ _ _ ?_
    rw [hln, hl0]
    exact h2

theorem list_append_insertion_order_witness :
    0 < (WrenVM.mk [] 0 [Value.vnull, Value.vnull] [] 0).slots.length ∧
    1 < (WrenVM.mk [] 0 [Value.vnull, Value.vnull] [] 0).slots.length ∧
    (0 : Nat) ≠ 1 ∧
    (wrenGetListCount
        (appendViaSlots
          (wrenSetSlotNewList (WrenVM.mk [] 0 [Value.vnull, Value.vnull] [] 0) 0)
          0 1 [Value.vnum 3, Value.vbool true])
        0 = some ([Value.vnum 3, Value.vbool true] : List Value).length ∧
      (1 < ([Value.vnum 3, Value.vbool true] : List Value).length →
        slotGet
          (wrenGetListElement
            (appendViaSlots
              (wrenSetSlotNewList (WrenVM.mk [] 0 [Value.vnull, Value.vnull] [] 0) 0)
              0 1 [Value.vnum 3, Value.vbool true])
            0 ((1 : Nat) : Int) 1)
          1 = some (([Value.vnum 3, Value.vbool true] : List Value).getD 1
            Value.vnull))) :=
  ⟨by decide, by decide, by decide,
   list_append_insertion_order (WrenVM.mk [] 0 [Value.vnull, Value.vnull] [] 0)
     0 1 [Value.vnum 3, Value.vbool true] 1 (by decide) (by decide) (by decide)⟩

theorem listSet_head_ne_zero {α : Type} (l : List α) (n : Nat) (v : α)
    (hn : n ≠ 0) : (listSet l n v).head? = l.head? := by
  cases l with
  | nil => rfl
  | cons x xs =>
      cases n with
      | zero => exact absurd rfl hn
      | succ m => rfl

theorem listSet_ne_nil {α : Type} (l : List α) (n : Nat) (v : α)
    (h : l ≠ []) : listSet l n v ≠ [] := by
  cases l with
  | nil => exact absurd rfl h
  | cons x xs => cases n <;> simp [listSet]

theorem append_head_of_ne_nil {α : Type} (l t : List α) (h : l ≠ []) :
    (l ++ t).head? = l.head? := by
  cases l with
  | nil => exact absurd rfl h
  | cons x xs => rfl

theorem append_ne_nil_of_ne_nil {α : Type} (l t : List α) (h : l ≠ []) :
    l ++ t ≠ [] := by
  cases l with
  | nil => exact absurd rfl h
  | cons x xs => simp

theorem runOp_preserves_head (op : HostOp) (vm : WrenVM)
    (hne : vm.slots ≠ []) (hz : writesSlotZero op = false) :
    (runOp vm op).slots.head? = vm.slots.head? ∧ (runOp vm op).slots ≠ [] := by
  cases op with
  | opSetSlotBool s b =>
      have hs : s ≠ 0 := by simpa [writesSlotZero] using hz
      exact ⟨listSet_head_ne_zero _ _ _ hs, listSet_ne_nil _ _ _ hne⟩
  | opSetSlotDouble s n =>
      have hs : s ≠ 0 := by simpa [writesSlotZero] using hz
      exact ⟨listSet_head_ne_zero _ _ _ hs, listSet_ne_nil _ _ _ hne⟩
  | opSetSlotNull s =>
      have hs : s ≠ 0 := by simpa [writesSlotZero] using hz
      exact ⟨listSet_head_ne_zero _ _ _ hs, listSet_ne_nil _ _ _ hne⟩
  | opSetSlotBytes s bs =>
      have hs : s ≠ 0 := by simpa [writesSlotZero] using hz
      exact ⟨listSet_head_ne_zero _ _ _ hs, listSet_ne_nil _ _ _ hne⟩
  | opSetSlotString s t =>
      have hs : s ≠ 0 := by simpa [writesSlotZero] using hz
      exact ⟨listSet_head_ne_zero _ _ _ hs, listSet_ne_nil _ _ _ hne⟩
  | opSetSlotNewList s =>
      have hs : s ≠ 0 := by simpa [writesSlotZero] using hz
      exact ⟨listSet_head_ne_zero _ _ _ hs, listSet_ne_nil _ _ _ hne⟩
  | opSetSlotNewForeign s cs sz =>
      have hs : s ≠ 0 := by simpa [writesSlotZero] using hz
      cases hcg : slotGet vm cs with
      | none =>
          simp only [runOp, wrenSetSlotNewForeign, hcg]
          exact ⟨by trivial, hne⟩
      | some cls =>
          simp only [runOp, wrenSetSlotNewForeign, hcg, heapAlloc]
          exact ⟨listSet_head_ne_zero _ _ _ hs, listSet_ne_nil _ _ _ hne⟩
  | opSetSlotHandle s h =>
      have hs : s ≠ 0 := by simpa [writesSlotZero] using hz
      cases hcg : assocGet vm.handles h with
      | none =>
          simp only [runOp, wrenSetSlotHandle, hcg]
          exact ⟨by trivial, hne⟩
      | some v =>
          simp only [runOp, wrenSetSlotHandle, hcg]
          exact ⟨listSet_head_ne_zero _ _ _ hs, listSet_ne_nil _ _ _ hne⟩
  | opGetSlotHandle s =>
      cases hcg : slotGet vm s with
      | none =>
          simp only [runOp, wrenGetSlotHandle, hcg]
          exact ⟨by trivial, hne⟩
      | some v =>
          simp only [runOp, wrenGetSlotHandle, hcg]
          exact ⟨by trivial, hne⟩
  | opGetListElement ls i es =>
      have hs : es ≠ 0 := by simpa [writesSlotZero] using hz
      simp only [runOp, wrenGetListElement]
      repeat' split
      all_goals
        first
        | exact ⟨listSet_head_ne_zero _ _ _ hs, listSet_ne_nil _ _ _ hne⟩
        | exact ⟨by trivial, hne⟩
  | opInsertInList ls i es =>
      simp only [runOp, wrenInsertInList]
      repeat' split
      all_goals exact ⟨by trivial, hne⟩
  | opEnsureSlots n =>
      simp only [runOp, wrenEnsureSlots]
      split
      · exact ⟨by trivial, hne⟩
      · exact ⟨append_head_of_ne_nil _ _ hne, append_ne_nil_of_ne_nil _ _ hne⟩
  | opCollectGarbage => exact ⟨rfl, hne⟩

theorem runProg_preserves_head (prog : List HostOp) (vm : WrenVM)
    (hne : vm.slots ≠ [])
    (hw : ∀ op ∈ prog, writesSlotZero op = false) :
    (runProg prog vm).slots.head? = vm.slots.head? ∧
    (runProg prog vm).slots ≠ [] := by
  induction prog generalizing vm with
  | nil => exact ⟨rfl, hne⟩
  | cons op ops ih =>
      have h1 := runOp_preserves_head op vm hne (hw op (List.mem_cons_self _ _))
      have h2 := ih (runOp vm op) h1.2
        (fun o ho => hw o (List.mem_cons_of_mem _ ho))
      exact ⟨h2.1.trans h1.1, h2.2⟩

/-- Claim C5: a native call starts with the receiver in slot 0; if its
body never writes slot 0, the result observed by the caller is the
original receiver unchanged; and on return every slot other than slot 0
is discarded (for any body). -/
theorem native_call_receiver_protocol (prog prog2 : List HostOp)
    (vm : WrenVM) (receiver : Value) (args : List Value)
    (hw : ∀ op ∈ prog, writesSlotZero op = false) :
    slotGet (nativeCallEntry vm receiver args) 0 = some receiver ∧
    (nativeCall prog vm receiver args).1 = receiver ∧
    (nativeCall prog vm receiver args).2.slots = [receiver] ∧
    (nativeCall prog2 vm receiver args).2.slots
      = [(nativeCall prog2 vm receiver args).1] := by
  have hne : (nativeCallEntry vm receiver args).slots ≠ [] := by
    simp [nativeCallEntry]
  have hp := runProg_preserves_head prog (nativeCallEntry vm receiver args)
    hne hw
  have hhead : (runProg prog (nativeCallEntry vm receiver args)).slots.head?
      = some receiver := hp.1
  have hret : (runProg prog (nativeCallEntry vm receiver args)).slots.headD
      Value.vnull = receiver := by
    cases hcc : (runProg prog (nativeCallEntry vm receiver args)).slots with
    | nil => rw [hcc] at hhead; simp at hhead
    | cons x xs =>
        rw [hcc] at hhead
        simp only [List.head?_cons, Option.some_inj] at hhead
        simp [hhead]
  refine ⟨rfl, hret, ?_, rfl⟩
  show [(runProg prog (nativeCallEntry vm receiver args)).slots.headD
    Value.vnull] = [receiver]
  rw [hret]

theorem native_call_receiver_protocol_witness :
    (∀ op ∈ ([HostOp.opSetSlotDouble 1 7] : List HostOp),
      writesSlotZero op = false) ∧
    (slotGet (nativeCallEntry (WrenVM.mk [] 0 [] [] 0) (Value.vnum 5)
        [Value.vnull]) 0 = some (Value.vnum 5) ∧
      (nativeCall [HostOp.opSetSlotDouble 1 7] (WrenVM.mk [] 0 [] [] 0)
        (Value.vnum 5) [Value.vnull]).1 = Value.vnum 5 ∧
      (nativeCall [HostOp.opSetSlotDouble 1 7] (WrenVM.mk [] 0 [] [] 0)
        (Value.vnum 5) [Value.vnull]).2.slots = [Value.vnum 5] ∧
      (nativeCall [HostOp.opSetSlotNull 0] (WrenVM.mk [] 0 [] [] 0)
        (Value.vnum 5) [Value.vnull]).2.slots
        = [(nativeCall [HostOp.opSetSlotNull 0] (WrenVM.mk [] 0 [] [] 0)
            (Value.vnum 5) [Value.vnull]).1]) :=
  ⟨by decide,
   native_call_receiver_protocol [HostOp.opSetSlotDouble 1 7]
     [HostOp.opSetSlotNull 0] (WrenVM.mk [] 0 [] [] 0) (Value.vnum 5)
     [Value.vnull] (by decide)⟩

theorem memNat_eq_true_iff (r : Nat) (l : List Nat) :
    memNat r l = true ↔ r ∈ l := by
  induction l with
  | nil => simp [memNat]
  | cons x xs ih =>
      show (x == r || memNat r xs) = true ↔ r ∈ x :: xs
      rw [Bool.or_eq_true, beq_iff_eq, ih, List.mem_cons]
      constructor
      · rintro (rfl | h)
        · exact Or.inl rfl
        · exact Or.inr h
      · rintro (rfl | h)
        · exact Or.inl rfl
        · exact Or.inr h

theorem mem_refsOfValues (vs : List Value) (v : Value) (r : Nat)
    (hv : v ∈ vs) (hr : r ∈ valueRefs v) : r ∈ refsOfValues vs := by
  induction vs with
  | nil => simp at hv
  | cons x xs ih =>
      rcases List.mem_cons.mp hv with rfl | h
      · exact List.mem_append_left _ hr
      · exact List.mem_append_right _ (ih h)

theorem assocGet_mem {α : Type} (l : List (Nat × α)) (k : Nat) (a : α)
    (h : assocGet l k = some a) : (k, a) ∈ l := by
  induction l with
  | nil => simp [assocGet] at h
  | cons e es ih =>
      by_cases hk : e.1 = k
      · obtain ⟨e1, e2⟩ := e
        simp only [assocGet, if_pos hk] at h
        injection h with h2
        subst h2
        subst hk
        exact List.mem_cons_self _ _
      · simp only [assocGet, if_neg hk] at h
        exact List.mem_cons_of_mem _ (ih h)

theorem root_of_handle (vm : WrenVM) (h : Nat) (v : Value) (r : Nat)
    (hh : assocGet vm.handles h = some v) (hr : r ∈ valueRefs v) :
    r ∈ rootIds vm := by
  have hmem : (h, v) ∈ vm.handles := assocGet_mem _ _ _ hh
  have hv : v ∈ vm.handles.map Prod.snd := List.mem_map.mpr ⟨(h, v), hmem, rfl⟩
  exact List.mem_append_left _ (mem_refsOfValues _ _ _ hv hr)

theorem mem_reachDepth (vm : WrenVM) (n : Nat) (s : List Nat) (r : Nat)
    (h : r ∈ s) : r ∈ reachDepth vm n s := by
  induction n generalizing s with
  | zero => exact h
  | succ m ih => exact ih (expandIds vm s) (List.mem_append_left _ h)

theorem assocGet_filter_key {α : Type} (l : List (Nat × α)) (p : Nat → Bool)
    (k : Nat) (hp : p k = true) :
    assocGet (l.filter (fun e => p e.1)) k = assocGet l k := by
  induction l with
  | nil => rfl
  | cons e es ih =>
      by_cases hpe : p e.1 = true
      · rw [List.filter_cons_of_pos (by simpa using hpe)]
        simp only [assocGet]
        by_cases hk : e.1 = k
        · rw [if_pos hk, if_pos hk]
        · rw [if_neg hk, if_neg hk]
          exact ih
      · rw [List.filter_cons_of_neg (by simpa using hpe)]
        have hk : ¬e.1 = k := fun hkk => hpe (by rw [hkk]; exact hp)
        simp only [assocGet, if_neg hk]
        exact ih

theorem heapGet_collectGarbage_of_root (vm : WrenVM) (r : Nat)
    (h : r ∈ rootIds vm) :
    heapGet (wrenCollectGarbage vm) r = heapGet vm r := by
  show assocGet (vm.heap.filter (fun e => memNat e.1 (reachableIds vm))) r
      = assocGet vm.heap r
  exact assocGet_filter_key vm.heap (fun k => memNat k (reachableIds vm)) r
    ((memNat_eq_true_iff _ _).mpr (mem_reachDepth _ _ _ _ h))

theorem gcIter_handles (n : Nat) (vm : WrenVM) :
    (gcIter n vm).handles = vm.handles := by
  induction n generalizing vm with
  | zero => rfl
  | succ m ih => exact ih (wrenCollectGarbage vm)

theorem gcIter_slots (n : Nat) (vm : WrenVM) :
    (gcIter n vm).slots = vm.slots := by
  induction n generalizing vm with
  | zero => rfl
  | succ m ih => exact ih (wrenCollectGarbage vm)

theorem gcIter_heapGet (n : Nat) (vm : WrenVM) (h : Nat) (v : Value) (r : Nat)
    (hh : assocGet vm.handles h = some v) (hr : r ∈ valueRefs v) :
    heapGet (gcIter n vm) r = heapGet vm r := by
  induction n generalizing vm with
  | zero => rfl
  | succ m ih =>
      have hstep := heapGet_collectGarbage_of_root vm r
        (root_of_handle vm h v r hh hr)
      exact (ih (wrenCollectGarbage vm) hh).trans hstep

/-- Claim C6: a value captured as a handle stays readable after any number
of forced garbage-collection cycles while the handle is unreleased:
storing the handle back into a slot yields the original value, the heap
object it refers to is untouched, and its bytes can still be read; a
value that was only in a slot of a returned native call, by contrast, is
collected. -/
theorem handle_durability (vm vm1 : WrenVM) (slot slot2 h r n : Nat)
    (v : Value) (bs : Bytes)
    (hs : slotGet vm slot = some v)
    (hcap : wrenGetSlotHandle vm slot = some (h, vm1))
    (hs2 : slot2 < vm.slots.length) :
    slotGet (wrenSetSlotHandle (gcIter n vm1) slot2 h) slot2 = some v ∧
    (r ∈ valueRefs v → heapGet (gcIter n vm1) r = heapGet vm r) ∧
    (v = Value.vref r → heapGet vm r = some (Obj.str bs) →
      wrenGetSlotBytes (wrenSetSlotHandle (gcIter n vm1) slot2 h) slot2
        = some bs) ∧
    heapGet (wrenCollectGarbage
      (nativeCall [] (WrenVM.mk [(5, Obj.str [9])] 6 [] [] 0) Value.vnull
        [Value.vref 5]).2) 5 = none := by
  simp only [wrenGetSlotHandle, hs, Option.some_inj, Prod.mk.injEq] at hcap
  obtain ⟨rfl, rfl⟩ := hcap
  have hh1 : assocGet ((vm.nextHandle, v) :: vm.handles) vm.nextHandle
      = some v := by
    simp [assocGet]
  set vm1 : WrenVM :=
    { vm with handles := (vm.nextHandle, v) :: vm.handles,
              nextHandle := vm.nextHandle + 1 } with hvm1
  have hh1' : assocGet vm1.handles vm.nextHandle = some v := hh1
  have hhg : assocGet (gcIter n vm1).handles vm.nextHandle = some v := by
    rw [gcIter_handles]
    exact hh1'
  have hstore : wrenSetSlotHandle (gcIter n vm1) slot2 vm.nextHandle
      = slotSet (gcIter n vm1) slot2 v := by
    rw [wrenSetSlotHandle, hhg]
  have hlen : (gcIter n vm1).slots.length = vm.slots.length := by
    rw [gcIter_slots]
  have hread : slotGet (wrenSetSlotHandle (gcIter n vm1) slot2 vm.nextHandle)
      slot2 = some v := by
    rw [hstore]
    show listGet (listSet (gcIter n vm1).slots slot2 v) slot2 = some v
    exact listGet_listSet_self _ _ _ (by rw [hlen]; exact hs2)
  have hheappres : ∀ rr, rr ∈ valueRefs v →
      heapGet (gcIter n vm1) rr = heapGet vm rr := by
    intro rr hrr
    exact gcIter_heapGet n vm1 vm.nextHandle v rr hh1' hrr
  refine ⟨hread, hheappres r, ?_, by decide⟩
  intro hv hobj
  subst hv
  rw [wrenGetSlotBytes, hread, hstore]
  show (match heapGet (gcIter n vm1) r with
    | some (Obj.str bs) => some bs
    | _ => none) = some bs
  rw [hheappres r (by simp [valueRefs]), hobj]

theorem handle_durability_witness :
    slotGet (WrenVM.mk [(0, Obj.str [3, 4])] 1 [Value.vref 0] [] 0) 0
      = some (Value.vref 0) ∧
    wrenGetSlotHandle (WrenVM.mk [(0, Obj.str [3, 4])] 1 [Value.vref 0] [] 0) 0
      = some (0, WrenVM.mk [(0, Obj.str [3, 4])] 1 [Value.vref 0]
          [(0, Value.vref 0)] 1) ∧
    0 < (WrenVM.mk [(0, Obj.str [3, 4])] 1 [Value.vref 0] [] 0).slots.length ∧
    (slotGet (wrenSetSlotHandle
        (gcIter 2 (WrenVM.mk [(0, Obj.str [3, 4])] 1 [Value.vref 0]
          [(0, Value.vref 0)] 1)) 0 0) 0 = some (Value.vref 0) ∧
      ((0 : Nat) ∈ valueRefs (Value.vref 0) →
        heapGet (gcIter 2 (WrenVM.mk [(0, Obj.str [3, 4])] 1 [Value.vref 0]
          [(0, Value.vref 0)] 1)) 0
          = heapGet (WrenVM.mk [(0, Obj.str [3, 4])] 1 [Value.vref 0] [] 0) 0) ∧
      (Value.vref 0 = Value.vref 0 →
        heapGet (WrenVM.mk [(0, Obj.str [3, 4])] 1 [Value.vref 0] [] 0) 0
          = some (Obj.str [3, 4]) →
        wrenGetSlotBytes (wrenSetSlotHandle
          (gcIter 2 (WrenVM.mk [(0, Obj.str [3, 4])] 1 [Value.vref 0]
            [(0, Value.vref 0)] 1)) 0 0) 0 = some [3, 4]) ∧
      heapGet (wrenCollectGarbage
        (nativeCall [] (WrenVM.mk [(5, Obj.str [9])] 6 [] [] 0) Value.vnull
          [Value.vref 5]).2) 5 = none) :=
  ⟨by decide, by decide, by decide,
   handle_durability (WrenVM.mk [(0, Obj.str [3, 4])] 1 [Value.vref 0] [] 0)
     (WrenVM.mk [(0, Obj.str [3, 4])] 1 [Value.vref 0] [(0, Value.vref 0)] 1)
     0 0 0 0 2 (Value.vref 0) [3, 4] (by decide) (by decide) (by decide)⟩

theorem countBytes_append (c : Bytes) (l t : List Bytes) :
    countBytes c (l ++ t) = countBytes c l + countBytes c t := by
  induction l with
  | nil => simp [countBytes]
  | cons x xs ih => simp [countBytes, ih]; omega

theorem countBytes_eq_zero_of_not_mem (c : Bytes) (l : List Bytes)
    (h : c ∉ l) : countBytes c l = 0 := by
  induction l with
  | nil => rfl
  | cons x xs ih =>
      have hx : ¬x = c := fun hxc => h (hxc ▸ List.mem_cons_self _ _)
      have hxs : c ∉ xs := fun hm => h (List.mem_cons_of_mem _ hm)
      simp [countBytes, hx, ih hxs]

theorem importModule_preserves_loadOnceInv (res : Bytes → Bytes → Option Bytes)
    (load : Bytes → Option Bytes) (st : ImportState) (imp nm : Bytes)
    (hinv : loadOnceInv load st) :
    loadOnceInv load (importModule res load st imp nm).1 := by
  intro c hc
  rcases hres : res imp nm with _ | canon
  · simp only [importModule, hres]
    exact hinv c hc
  · rcases hcache : cacheGet st.cache canon with _ | src
    · rcases hload : load canon with _ | src2
      · have hcanon : c ≠ canon := fun hcc => hc (hcc ▸ hload)
        simp only [importModule, hres, hcache, hload]
        constructor
        · intro hcnone
          have hnot := (hinv c hc).1 hcnone
          intro hmem
          rcases List.mem_append.mp hmem with h1 | h2
          · exact hnot h1
          · exact hcanon (List.mem_singleton.mp h2)
        · rw [countBytes_append]
          have h0 : countBytes c [canon] = 0 :=
            countBytes_eq_zero_of_not_mem _ _
              (fun hm => hcanon (List.mem_singleton.mp hm))
          rw [h0]
          simpa using (hinv c hc).2
      · by_cases hcc : c = canon
        · subst hcc
          simp only [importModule, hres, hcache, hload]
          constructor
          · intro hcnone
            simp [cacheGet] at hcnone
          · rw [countBytes_append]
            have h0 : countBytes c st.loadLog = 0 :=
              countBytes_eq_zero_of_not_mem _ _ ((hinv c hc).1 hcache)
            simp [h0, countBytes]
        · have hcanon : ¬canon = c := fun h => hcc h.symm
          simp only [importModule, hres, hcache, hload]
          constructor
          · intro hcnone
            simp only [cacheGet, if_neg hcanon] at hcnone
            have hnot := (hinv c hc).1 hcnone
            intro hmem
            rcases List.mem_append.mp hmem with h1 | h2
            · exact hnot h1
            · exact hcc (List.mem_singleton.mp h2)
          · rw [countBytes_append]
            have h0 : countBytes c [canon] = 0 :=
              countBytes_eq_zero_of_not_mem _ _
                (fun hm => hcc (List.mem_singleton.mp hm))
            rw [h0]
            simpa using (hinv c hc).2
    · simp only [importModule, hres, hcache]
      exact hinv c hc

theorem runImports_loadOnceInv (res : Bytes → Bytes → Option Bytes)
    (load : Bytes → Option Bytes) (imports : List (Bytes × Bytes))
    (st : ImportState) (hinv : loadOnceInv load st) :
    loadOnceInv load (runImports res load st imports) := by
  induction imports generalizing st with
  | nil => exact hinv
  | cons i is ih =>
      exact ih (importModule res load st i.1 i.2).1
        (importModule_preserves_loadOnceInv res load st i.1 i.2 hinv)

theorem emptyImportState_loadOnceInv (load : Bytes → Option Bytes) :
    loadOnceInv load emptyImportState := by
  intro c hc
  exact ⟨fun _ => List.not_mem_nil c, Nat.zero_le 1⟩

/-- Claim C3 (amended): for every canonical name the loader can supply,
any sequence of imports from a fresh VM invokes the load callback at most
once for it; and once a canonical name is cached, a further import of a
name resolving to it bypasses the load callback and observes the
identical cached source — while still invoking the resolve callback. -/
theorem module_load_once_and_cache_reuse
    (res : Bytes → Bytes → Option Bytes) (load : Bytes → Option Bytes)
    (imports : List (Bytes × Bytes)) (importer nm canon2 canon src : Bytes)
    (hload : load canon2 ≠ none)
    (hres : res importer nm = some canon)
    (hcached : cacheGet (runImports res load emptyImportState imports).cache
      canon = some src) :
    countBytes canon2 (runImports res load emptyImportState imports).loadLog
      ≤ 1 ∧
    importModule res load (runImports res load emptyImportState imports)
      importer nm
      = ({ runImports res load emptyImportState imports with
            resolveLog :=
              (runImports res load emptyImportState imports).resolveLog
                ++ [(importer, nm)] },
         ImportOutcome.loaded src) := by
  constructor
  · exact ((runImports_loadOnceInv res load imports emptyImportState
      (emptyImportState_loadOnceInv load)) canon2 hload).2
  · simp only [importModule, hres, hcached]

/-- Claim C3 counterexample: with resolver `fun _ n => some n` and a
loader returning source `[1]`, importing name `[7]` twice invokes the
resolve callback twice — the second import of the already-loaded
canonical name `[7]` does not bypass the resolve callback (the load
callback is indeed invoked only once); and with a loader that always
fails, the load callback runs twice for the same canonical name. -/
theorem module_cache_bypass_counterexample :
    (runImports (fun _ n => some n) (fun _ => (some [1] : Option Bytes))
      emptyImportState [([], [7]), ([], [7])]).resolveLog
      = [([], [7]), ([], [7])] ∧
    (runImports (fun _ n => some n) (fun _ => (some [1] : Option Bytes))
      emptyImportState [([], [7]), ([], [7])]).loadLog = [[7]] ∧
    (runImports (fun _ n => some n) (fun _ => (none : Option Bytes))
      emptyImportState [([], [7]), ([], [7])]).loadLog = [[7], [7]] :=
  ⟨rfl, rfl, rfl⟩

theorem module_load_once_and_cache_reuse_witness :
    (fun _ => (some [9] : Option Bytes)) ([4] : Bytes) ≠ none ∧
    (fun _ n => (some n : Option Bytes)) ([] : Bytes) ([4] : Bytes)
      = some [4] ∧
    cacheGet (runImports (fun _ n => some n)
      (fun _ => (some [9] : Option Bytes)) emptyImportState
      [([], [4])]).cache [4] = some [9] ∧
    (countBytes [4] (runImports (fun _ n => some n)
        (fun _ => (some [9] : Option Bytes)) emptyImportState
        [([], [4])]).loadLog ≤ 1 ∧
      importModule (fun _ n => some n) (fun _ => (some [9] : Option Bytes))
        (runImports (fun _ n => some n) (fun _ => (some [9] : Option Bytes))
          emptyImportState [([], [4])]) [] [4]
        = ({ runImports (fun _ n => some n)
              (fun _ => (some [9] : Option Bytes)) emptyImportState
              [([], [4])] with
              resolveLog := (runImports (fun _ n => some n)
                (fun _ => (some [9] : Option Bytes)) emptyImportState
                [([], [4])]).resolveLog ++ [([], [4])] },
           ImportOutcome.loaded [9])) :=
  ⟨by simp, rfl, rfl,
   module_load_once_and_cache_reuse (fun _ n => some n)
     (fun _ => (some [9] : Option Bytes)) [([], [4])] [] [4] [4] [4] [9]
     (by simp) rfl rfl⟩

theorem assocGet_none_of_all_lt (l : List (Nat × Bytes)) (n : Nat)
    (h : l.all (fun e => e.1 < n && e.1 != 0) = true) : assocGet l n = none := by
  induction l with
  | nil => rfl
  | cons e es ih =>
      rw [List.all_cons, Bool.and_eq_true] at h
      have h1 := h.1
      rw [Bool.and_eq_true] at h1
      have hlt : e.1 < n := of_decide_eq_true h1.1
      simp only [assocGet, if_neg (Nat.ne_of_lt hlt)]
      exact ih h.2

theorem key_lt_of_assocGet_some (l : List (Nat × Bytes)) (n p : Nat)
    (old : Bytes) (h : l.all (fun e => e.1 < n && e.1 != 0) = true)
    (hp : assocGet l p = some old) : p < n := by
  induction l with
  | nil => simp [assocGet] at hp
  | cons e es ih =>
      rw [List.all_cons, Bool.and_eq_true] at h
      by_cases hk : e.1 = p
      · have h1 := h.1
        rw [Bool.and_eq_true] at h1
        exact hk ▸ of_decide_eq_true h1.1
      · simp only [assocGet, if_neg hk] at hp
        exact ih h.2 hp

theorem assocGet_filter_bne_self {α : Type} (l : List (Nat × α)) (p : Nat) :
    assocGet (l.filter (fun e => e.1 != p)) p = none := by
  induction l with
  | nil => rfl
  | cons e es ih =>
      by_cases he : e.1 = p
      · rw [List.filter_cons_of_neg (by simp [he])]
        exact ih
      · rw [List.filter_cons_of_pos (by simp [he])]
        simp only [assocGet, if_neg he]
        exact ih

/-- Claim C7: the single allocator callback implements the realloc-style
operations selected by its arguments: a null pointer with a positive size
allocates a fresh block of that size; a live pointer with a positive size
yields a block of the new size, in place when shrinking and at a
different address when growing; a live pointer with size zero frees the
block and returns null. -/
theorem reallocate_contract (m : Mem) (p newSize : Nat) (old : Bytes)
    (hwf : memWF m = true) (hn : 0 < newSize)
    (hp : assocGet m.blocks p = some old) :
    ((reallocate m none newSize).2 = some m.nextAddr ∧
      assocGet m.blocks m.nextAddr = none ∧
      assocGet (reallocate m none newSize).1.blocks m.nextAddr
        = some (List.replicate newSize 0) ∧
      (List.replicate newSize 0).length = newSize) ∧
    (newSize ≤ old.length →
      (reallocate m (some p) newSize).2 = some p ∧
      assocGet (reallocate m (some p) newSize).1.blocks p
        = some (old.take newSize) ∧
      (old.take newSize).length = newSize) ∧
    (old.length < newSize →
      (reallocate m (some p) newSize).2 = some m.nextAddr ∧
      p ≠ m.nextAddr ∧
      assocGet (reallocate m (some p) newSize).1.blocks m.nextAddr
        = some (resizeBytes old newSize) ∧
      (resizeBytes old newSize).length = newSize) ∧
    ((reallocate m (some p) 0).2 = none ∧
      assocGet (reallocate m (some p) 0).1.blocks p = none) := by
  have hnz : ¬newSize = 0 := by omega
  refine ⟨⟨?_, ?_, ?_, ?_⟩, ?_, ?_, ?_, ?_⟩
  · simp only [reallocate, if_neg hnz]
  · exact assocGet_none_of_all_lt m.blocks m.nextAddr hwf
  · simp only [reallocate, if_neg hnz]
    simp [assocGet]
  · simp
  · intro hle
    refine ⟨?_, ?_, ?_⟩
    · simp only [reallocate, if_neg hnz, hp, if_pos hle]
    · simp only [reallocate, if_neg hnz, hp, if_pos hle]
      exact assocGet_assocSet_self _ _ _ _ hp
    · simp [List.length_take, Nat.min_eq_left hle]
  · intro hgt
    have hnle : ¬newSize ≤ old.length := by omega
    have hplt : p < m.nextAddr :=
      key_lt_of_assocGet_some m.blocks m.nextAddr p old hwf hp
    refine ⟨?_, Nat.ne_of_lt hplt, ?_, ?_⟩
    · simp only [reallocate, if_neg hnz, hp, if_neg hnle]
    · simp only [reallocate, if_neg hnz, hp, if_neg hnle]
      simp [assocGet]
    · simp only [resizeBytes, List.length_append, List.length_take,
        List.length_replicate]
      omega
  · rfl
  · exact assocGet_filter_bne_self m.blocks p

theorem reallocate_contract_witness :
    memWF (Mem.mk [(1, [7, 8])] 2) = true ∧
    (0 : Nat) < 1 ∧
    assocGet (Mem.mk [(1, [7, 8])] 2).blocks 1 = some [7, 8] ∧
    (((reallocate (Mem.mk [(1, [7, 8])] 2) none 1).2 = some 2 ∧
        assocGet (Mem.mk [(1, [7, 8])] 2).blocks 2 = none ∧
        assocGet (reallocate (Mem.mk [(1, [7, 8])] 2) none 1).1.blocks 2
          = some (List.replicate 1 0) ∧
        (List.replicate 1 (0 : Nat)).length = 1) ∧
      ((1 : Nat) ≤ ([7, 8] : Bytes).length →
        (reallocate (Mem.mk [(1, [7, 8])] 2) (some 1) 1).2 = some 1 ∧
        assocGet (reallocate (Mem.mk [(1, [7, 8])] 2) (some 1) 1).1.blocks 1
          = some (([7, 8] : Bytes).take 1) ∧
        (([7, 8] : Bytes).take 1).length = 1) ∧
      (([7, 8] : Bytes).length < 1 →
        (reallocate (Mem.mk [(1, [7, 8])] 2) (some 1) 1).2 = some 2 ∧
        (1 : Nat) ≠ 2 ∧
        assocGet (reallocate (Mem.mk [(1, [7, 8])] 2) (some 1) 1).1.blocks 2
          = some (resizeBytes [7, 8] 1) ∧
        (resizeBytes [7, 8] 1).length = 1) ∧
      ((reallocate (Mem.mk [(1, [7, 8])] 2) (some 1) 0).2 = none ∧
        assocGet (reallocate (Mem.mk [(1, [7, 8])] 2) (some 1) 0).1.blocks 1
          = none)) :=
  ⟨by decide, by decide, by decide,
   reallocate_contract (Mem.mk [(1, [7, 8])] 2) 1 1 [7, 8] (by decide)
     (by decide) (by decide)⟩
